import Mathlib

/-!
# Verification of the frequency-processor core (`src/app.py`)

Shallow embedding of the core logic of `app.py`:

* `excel_col_to_index` (app.py lines 19-30): Excel column letters to 0-based
  index, raising `ValueError` on a character outside `A`..`Z`.
* the `analyze` request handler's core (app.py lines 45-98): parsing the
  columns spec, loading the requested columns via pandas `usecols`, and
  building per-label frequency tables.

Python strings are modelled as `List Char`; the ASCII fragment of
`str.strip` / `str.upper` is modelled (the spec's column labels are ASCII).
A raised exception is an `Except.error`; `None` / `NaN` cells are `none`.

Library calls are embedded from their semantics:

* `re.split(r"[,\s;]+", s)` followed by dropping empty tokens (app.py
  lines 56-57, 81-82) yields exactly the maximal runs of non-separator
  characters of `s`, in order; `tokens` below computes those runs.
* `pd.read_excel(..., header=None, dtype=str, usecols=s)` parses `s` with
  pandas `_range2cols` / `_excel2num`: each comma-separated area is either
  a colon range `first:second`, expanded inclusively, or a single label;
  every segment goes through the same strip/upper/base-26 loop as
  `excel_col_to_index`, raising `ValueError` on a non-letter character
  (the empty segment yields `-1`).  The resulting integer positions select
  columns of the sheet *in sheet order, deduplicated* (membership filter),
  and an index at or beyond the sheet width raises `ParserError` (pandas
  refuses out-of-bounds integer `usecols`), while negative positions
  simply select nothing.  `rangeCols` / `excelColsE` below embed this,
  colon ranges included.
* `Series.dropna` drops exactly the `None` cells; `str(x).strip()` trims;
  `value_counts().to_dict()` maps each distinct value to its count, a
  count being the number of occurrences in the value list.

The sheet (the workbook as parsed by openpyxl) is a list of rows of
optional strings; openpyxl pads rows to a uniform width, and pandas takes
the column count from the first row.
-/

instance {ε α : Type} [DecidableEq ε] [DecidableEq α] : DecidableEq (Except ε α)
  | .error e, .error f =>
      if h : e = f then isTrue (by rw [h])
      else isFalse (by intro hh; cases hh; exact h rfl)
  | .error _, .ok _ => isFalse (by intro hh; cases hh)
  | .ok _, .error _ => isFalse (by intro hh; cases hh)
  | .ok a, .ok b =>
      if h : a = b then isTrue (by rw [h])
      else isFalse (by intro hh; cases hh; exact h rfl)

/-- ASCII whitespace, the characters stripped by Python `str.strip` and
matched by the regex class `\s` (ASCII fragment). -/
def pyIsSpace (c : Char) : Bool :=
  c = ' ' || c = '\t' || c = '\n' || c = '\x0d' || c = '\x0b' || c = '\x0c'

/-- Python `str.strip()`: remove leading and trailing whitespace. -/
def pyStrip (s : List Char) : List Char :=
  ((s.dropWhile pyIsSpace).reverse.dropWhile pyIsSpace).reverse

/-- Python `str.upper()`, ASCII fragment: uppercase each character
(`Char.toUpper` maps `a`..`z` to `A`..`Z` and fixes everything else). -/
def pyUpper (s : List Char) : List Char := s.map Char.toUpper

/-- The loop of `excel_col_to_index` (app.py lines 25-30): fold the base-26
accumulator over the characters, raising on a character outside `A`..`Z`;
at the end, return `total - 1`. -/
def excelLoop : List Char → Int → Except (List Char) Int
  | [], total => .ok (total - 1)
  | c :: cs, total =>
      if 'A' ≤ c ∧ c ≤ 'Z' then
        excelLoop cs (total * 26 + ((c.toNat : Int) - ('A'.toNat : Int) + 1))
      else .error ['b', 'a', 'd', ' ', 'c', 'o', 'l']

/-- `excel_col_to_index` (app.py lines 19-30): strip, uppercase, then run
the base-26 loop.  `.error` models the raised `ValueError`. -/
def excel_col_to_index (s : List Char) : Except (List Char) Int :=
  excelLoop (pyUpper (pyStrip s)) 0

/-- The spec's digit value: `value(c) = codepoint of c − codepoint of 'A' + 1`. -/
def letterValue (c : Char) : Int := (c.toNat : Int) - ('A'.toNat : Int) + 1

/-- The spec's positional sum, in recursive form:
`specSum (c :: cs) = value c * 26 ^ |cs| + specSum cs`. -/
def specSum : List Char → Int
  | [] => 0
  | c :: cs => letterValue c * (26 : Int) ^ cs.length + specSum cs

/-- A string all of whose characters lie in `A`..`Z`. -/
def AllUpper (L : List Char) : Prop := ∀ c ∈ L, 'A' ≤ c ∧ c ≤ 'Z'

instance (L : List Char) : Decidable (AllUpper L) := by
  unfold AllUpper; infer_instance

/-- A separator character of the columns spec: the regex class `[,\s;]`
(app.py lines 56 and 81). -/
def isSepChar (c : Char) : Bool := c = ',' || c = ';' || pyIsSpace c

/-- Helper for `tokens`: accumulate the current (reversed) run of
non-separator characters. -/
def tokensAux : List Char → List Char → List (List Char)
  | [], acc => if acc = [] then [] else [acc.reverse]
  | c :: cs, acc =>
      if isSepChar c then
        if acc = [] then tokensAux cs [] else acc.reverse :: tokensAux cs []
      else tokensAux cs (c :: acc)

/-- `re.split(r"[,\s;]+", s)` followed by dropping empty tokens
(app.py lines 56-57 and 81-82): splitting on each maximal separator run and
removing the empty pieces leaves exactly the maximal runs of non-separator
characters, in their original order. -/
def tokens (s : List Char) : List (List Char) := tokensAux s []

/-- The parsed columns spec (app.py lines 81-82): the caller's tokens in
original case, used as the result dictionary's keys. -/
def parse_columns (s : List Char) : List (List Char) := tokens (pyStrip s)

/-- A cell as loaded by pandas with `dtype=str`: `none` is an empty cell
(`NaN`), `some v` a textual value. -/
abbrev Cell := Option (List Char)

/-- The workbook as parsed by openpyxl: rows of cells, padded to a uniform
width.  Row 0 is the header row. -/
abbrev Sheet := List (List Cell)

/-- The column count pandas infers with `header=None`: the width of the
first row (openpyxl pads every row to the sheet width). -/
def sheetNCols (sheet : Sheet) : Nat := (sheet.headD []).length

/-- Python `rng.split(":")` on an area string: split at every colon,
keeping empty segments. -/
def splitColonAux : List Char → List Char → List (List Char)
  | [], acc => [acc.reverse]
  | c :: cs, acc =>
      if c = ':' then acc.reverse :: splitColonAux cs []
      else splitColonAux cs (c :: acc)

def splitColon (s : List Char) : List (List Char) := splitColonAux s []

/-- Python `range(a, b + 1)` over integers: `[a, a+1, …, b]`, empty when
`b < a`. -/
def intRange (a b : Int) : List Int :=
  (List.range (b + 1 - a).toNat).map (fun i => a + (i : Int))

/-- pandas `_range2cols` on one comma-separated area: an area containing a
colon is a range `first:second` (`rngs[0]` and `rngs[1]`; further colon
segments are ignored), expanded inclusively by `range(lo, hi + 1)`; any
other area is a single label.  Each segment goes through `_excel2num`,
the same strip/upper/base-26 loop as `excel_col_to_index` (so the empty
segment yields `-1`), and the first `ValueError` aborts the read. -/
def rangeCols (rng : List Char) : Except (List Char) (List Int) :=
  if ':' ∈ rng then
    match excel_col_to_index ((splitColon rng).getD 0 []),
          excel_col_to_index ((splitColon rng).getD 1 []) with
    | .error e, _ => .error e
    | .ok _, .error e => .error e
    | .ok a, .ok b => .ok (intRange a b)
  else
    match excel_col_to_index rng with
    | .error e => .error e
    | .ok n => .ok [n]

/-- pandas `_range2cols` over all areas (app.py lines 60-65 with line 71):
the `usecols` string is the comma-join of the uppercased tokens, which
pandas splits back on commas; since tokens never contain a comma this
recovers the token list, each token expanded by `rangeCols` and the
results concatenated. -/
def excelColsE : List (List Char) → Except (List Char) (List Int)
  | [] => .ok []
  | t :: ts =>
      match rangeCols t, excelColsE ts with
      | .error e, _ => .error e
      | .ok _, .error e => .error e
      | .ok ns, .ok ms => .ok (ns ++ ms)

/-- The area list pandas sees: `",".join(col_letters).split(",")`.  For an
empty token list the join is the empty string, whose split is one empty
area (which `_excel2num` maps to `-1`); otherwise it is the token list
itself. -/
def usecolsAreas (letters : List (List Char)) : List (List Char) :=
  if letters = [] then [[]] else letters

/-- The column positions pandas keeps for integer `usecols`: positions of
the sheet, in sheet order, whose index occurs among the requested ones
(membership filter, hence deduplicated). -/
def selectCols (usecols : List Int) (ncols : Nat) : List Nat :=
  (List.range ncols).filter (fun i => decide ((i : Int) ∈ usecols))

/-- `pd.read_excel(..., header=None, dtype=str, usecols=...)` after the
workbook is parsed (app.py lines 67-73): raise `ParserError` when a
requested index lies at or beyond the sheet width, otherwise keep the
selected columns of every row (sheet order, deduplicated). -/
def readUsecols (sheet : Sheet) (usecols : List Int) :
    Except (List Char) (List (List Cell)) :=
  if usecols.any (fun u => decide ((sheetNCols sheet : Int) ≤ u)) then
    .error ['o', 'u', 't', ' ', 'o', 'f', ' ', 'b', 'o', 'u', 'n', 'd', 's']
  else
    .ok (sheet.map (fun row => (selectCols usecols (sheetNCols sheet)).map
      (fun i => row.getD i none)))

/-- Per-column processing (app.py lines 94-95): take the loaded rows from
index 1 on (skip the header), drop the `NaN` cells (`dropna`), and strip
each remaining value (`str(x).strip()`).  The resulting value list carries
the frequency table: `value_counts().to_dict()` maps each distinct value
to its number of occurrences (`List.count`). -/
def colValues (df : List (List Cell)) (i : Nat) : List (List Char) :=
  ((df.drop 1).filterMap (fun row => row.getD i none)).map pyStrip

/-- One result entry: either the error marker dictionary
`{"_error": ...}` (app.py line 90) or a frequency table, represented by
its value list. -/
abbrev Entry := Except (List Char) (List (List Char))

/-- The marker message of app.py line 90. -/
def notFoundMsg : List Char := ['n', 'o', 't', ' ', 'f', 'o', 'u', 'n', 'd']

/-- The result dictionary (app.py lines 84-96), as its insertion sequence
of key/value pairs: later pairs overwrite earlier ones under dictionary
semantics (`dictGet`). -/
def buildResult (df : List (List Cell)) (nDfCols : Nat)
    (letters : List (List Char)) : List (List Char × Entry) :=
  letters.enum.map (fun p =>
    if nDfCols ≤ p.1 then (p.2, .error notFoundMsg)
    else (p.2, .ok (colValues df p.1)))

/-- The core of the `analyze` handler (app.py lines 55-98) on an already
parsed workbook: parse the spec, uppercase the tokens for `usecols`
(line 57), read the selected columns (any `ValueError` / `ParserError`
is caught at line 76 and turns into the whole-request 400 error, modelled
as `.error`), then build the per-label result from the original-case
tokens (lines 81-96). -/
def analyzeCore (sheet : Sheet) (columns_raw : List Char) :
    Except (List Char) (List (List Char × Entry)) :=
  match excelColsE (usecolsAreas
      ((parse_columns columns_raw).map (fun t => pyUpper (pyStrip t)))) with
  | .error e => .error e
  | .ok usecols =>
      match readUsecols sheet usecols with
      | .error e => .error e
      | .ok df =>
          .ok (buildResult df (selectCols usecols (sheetNCols sheet)).length
                 (parse_columns columns_raw))

/-- The whole `analyze` operation: `none` models bytes that openpyxl cannot
parse as a workbook (the parse happens first, inside the same `try`, and
also becomes the whole-request error). -/
def analyze (file : Option Sheet) (columns_raw : List Char) :
    Except (List Char) (List (List Char × Entry)) :=
  match file with
  | none => .error ['n', 'o', 't', ' ', 'e', 'x', 'c', 'e', 'l']
  | some sheet => analyzeCore sheet columns_raw

/-- Python dictionary lookup on the insertion sequence: the value of the
last pair with the given key. -/
def dictGet (entries : List (List Char × Entry)) (k : List Char) :
    Option Entry :=
  (entries.reverse.find? (fun p => decide (p.1 = k))).map Prod.snd

/-- The canonical form of a label, as computed by app.py line 24:
stripped and uppercased. -/
def canon (s : List Char) : List Char := pyUpper (pyStrip s)

/-- The sheet of the spec's worked example: header `[id, cat]` and five
data rows, one with a padded cell, one with a missing cell. -/
def sheetC2 : Sheet :=
  [[some ['i', 'd'], some ['c', 'a', 't']],
   [some ['1'], some ['a']],
   [some ['2'], some ['b']],
   [some ['3'], some ['a']],
   [some ['4'], some [' ', 'a', ' ']],
   [some ['5'], none]]

/-- The value list backing the frequency table for column `B` of `sheetC2`. -/
def c2Values : List (List Char) := [['a'], ['b'], ['a'], ['a']]

/-- A one-column sheet with a whitespace-only cell in row 1 and a plain
cell in row 2. -/
def sheetC5 : Sheet := [[some ['h']], [some [' ', ' ']], [some ['x']]]

/-- A valid canonical column label: non-empty, all characters `A`..`Z`. -/
def ValidLabel (L : List Char) : Prop := L ≠ [] ∧ AllUpper L

instance (L : List Char) : Decidable (ValidLabel L) := by
  unfold ValidLabel; infer_instance

/-- The natural ordering of labels (`A < B < ... < Z < AA < AB < ...`):
shorter labels first, lexicographic at equal length. -/
def labelLt (a b : List Char) : Prop :=
  a.length < b.length ∨ (a.length = b.length ∧ List.Lex (· < ·) a b)

/-- The 1-based base-26 value of a label, as the code's loop accumulates it
(in `Nat`; the code returns this minus one). -/
def vAux : List Char → Nat → Nat
  | [], a => a
  | c :: cs, a => vAux cs (a * 26 + (c.toNat - 'A'.toNat + 1))

def labelVal (L : List Char) : Nat := vAux L 0

/-- The loop value of `A…A` (all digits 1), the smallest for its length. -/
def minVal : Nat → Nat
  | 0 => 0
  | n + 1 => 26 ^ n + minVal n

/-- The loop value of `Z…Z` (all digits 26), the largest for its length. -/
def maxVal : Nat → Nat
  | 0 => 0
  | n + 1 => 26 ^ (n + 1) + maxVal n

/-- The inverse label of a positive integer: bijective base 26, digits
`1`..`26` written `A`..`Z`. -/
def toLabel : Nat → List Char
  | 0 => []
  | n + 1 => toLabel (n / 26) ++ [Char.ofNat ('A'.toNat + n % 26)]
  termination_by n => n
  decreasing_by simp_wf; omega

theorem excelLoop_ok (L : List Char) (h : AllUpper L) :
    ∀ a : Int, excelLoop L a = .ok (a * (26 : Int) ^ L.length + specSum L - 1) := by
  induction L with
  | nil => intro a; simp [excelLoop, specSum]
  | cons c cs ih =>
      intro a
      have hc := h c (by simp)
      have hcs : AllUpper cs := fun x hx => h x (by simp [hx])
      rw [excelLoop, if_pos hc, ih hcs]
      congr 1
      simp only [specSum, letterValue, List.length_cons]
      ring

theorem excelLoop_err (L : List Char) (h : ¬ AllUpper L) :
    ∀ a : Int, excelLoop L a = .error ['b', 'a', 'd', ' ', 'c', 'o', 'l'] := by
  induction L with
  | nil => exact absurd (by intro c hc; simp at hc) h
  | cons c cs ih =>
      intro a
      by_cases hc : 'A' ≤ c ∧ c ≤ 'Z'
      · have hcs : ¬ AllUpper cs := by
          intro hall; exact h (by intro x hx; rcases List.mem_cons.mp hx with h1 | h2
                                  · exact h1 ▸ hc
                                  · exact hall x h2)
        rw [excelLoop, if_pos hc, ih hcs]
      · rw [excelLoop, if_neg hc]

/-- On an all-letters (post strip/upper) input, the code returns the spec sum minus one. -/
theorem excel_col_to_index_ok (s : List Char)
    (h : AllUpper (pyUpper (pyStrip s))) :
    excel_col_to_index s = .ok (specSum (pyUpper (pyStrip s)) - 1) := by
  unfold excel_col_to_index
  rw [excelLoop_ok _ h 0]
  congr 1
  ring

theorem excel_canon (s : List Char) : excel_col_to_index s = excelLoop (canon s) 0 := rfl

theorem excel_ok_of_canon (s : List Char) (h : AllUpper (canon s)) :
    excel_col_to_index s = .ok (specSum (canon s) - 1) := excel_col_to_index_ok s h

theorem char_le_iff (a b : Char) : (a ≤ b) ↔ a.toNat ≤ b.toNat := Iff.rfl

theorem char_lt_iff (a b : Char) : (a < b) ↔ a.toNat < b.toNat := Iff.rfl

theorem char_toNat_ofNat (n : Nat) (h : n < 55296) : (Char.ofNat n).toNat = n := by
  unfold Char.ofNat
  rw [dif_pos (Or.inl h)]
  rfl

theorem char_toUpper_of_upper (c : Char) (h : 'A' ≤ c ∧ c ≤ 'Z') : c.toUpper = c := by
  have h1 : c.toNat ≤ 90 := (char_le_iff c 'Z').mp h.2
  unfold Char.toUpper
  rw [if_neg]
  simp only [ge_iff_le, not_and, Nat.not_le]
  intro hc
  omega

theorem char_toUpper_of_lower (c : Char) (h : 'a' ≤ c ∧ c ≤ 'z') :
    'A' ≤ c.toUpper ∧ c.toUpper ≤ 'Z' := by
  have h1 : 97 ≤ c.toNat := (char_le_iff 'a' c).mp h.1
  have h2 : c.toNat ≤ 122 := (char_le_iff c 'z').mp h.2
  have hA : ('A').toNat = 65 := rfl
  have hZ : ('Z').toNat = 90 := rfl
  unfold Char.toUpper
  rw [if_pos ⟨h1, h2⟩]
  have ht : (Char.ofNat (c.toNat - 32)).toNat = c.toNat - 32 :=
    char_toNat_ofNat _ (by omega)
  exact ⟨(char_le_iff _ _).mpr (by omega), (char_le_iff _ _).mpr (by omega)⟩

theorem mem_of_mem_pyStrip {c : Char} {s : List Char} (h : c ∈ pyStrip s) : c ∈ s := by
  unfold pyStrip at h
  rw [List.mem_reverse] at h
  have h1 := (List.dropWhile_sublist _).subset h
  rw [List.mem_reverse] at h1
  exact (List.dropWhile_sublist _).subset h1

theorem specSum_eq_sum (L : List Char) :
    specSum L = ∑ i ∈ Finset.range L.length,
      letterValue (L.getD i 'A') * (26 : Int) ^ (L.length - 1 - i) := by
  induction L with
  | nil => simp [specSum]
  | cons c cs ih =>
      rw [List.length_cons, Finset.sum_range_succ']
      have h0 : letterValue ((c :: cs).getD 0 'A') *
          (26 : Int) ^ (cs.length + 1 - 1 - 0) = letterValue c * 26 ^ cs.length := by
        have e : cs.length + 1 - 1 - 0 = cs.length := by omega
        simp only [List.getD_cons_zero, e]
      have hsum : (∑ i ∈ Finset.range cs.length,
            letterValue ((c :: cs).getD (i + 1) 'A') *
              (26 : Int) ^ (cs.length + 1 - 1 - (i + 1))) = specSum cs := by
        rw [ih]
        apply Finset.sum_congr rfl
        intro i _
        simp only [List.getD_cons_succ]
        congr 2
        omega
      rw [h0, hsum, specSum]
      ring

/-- C1: for every label whose canonical (stripped, uppercased) form consists
only of letters `A`..`Z`, `excel_col_to_index` returns the spec's positional
base-26 sum minus one; in particular the indices of `A`, `Z`, `AA`, `AZ`,
`BA` are 0, 25, 26, 51, 52. -/
theorem claim_C1 :
    (∀ s : List Char, AllUpper (canon s) →
      excel_col_to_index s = .ok ((∑ i ∈ Finset.range (canon s).length,
        letterValue ((canon s).getD i 'A') *
          (26 : Int) ^ ((canon s).length - 1 - i)) - 1))
    ∧ excel_col_to_index ['A'] = .ok 0
    ∧ excel_col_to_index ['Z'] = .ok 25
    ∧ excel_col_to_index ['A', 'A'] = .ok 26
    ∧ excel_col_to_index ['A', 'Z'] = .ok 51
    ∧ excel_col_to_index ['B', 'A'] = .ok 52 := by
  refine ⟨fun s h => ?_, by decide, by decide, by decide, by decide, by decide⟩
  rw [excel_ok_of_canon s h, ← specSum_eq_sum]

/-- Witness for C1 at the concrete label `['b', 'a']`. -/
theorem claim_C1_witness :
    excel_col_to_index ['b', 'a'] = .ok ((∑ i ∈ Finset.range (canon ['b', 'a']).length,
      letterValue ((canon ['b', 'a']).getD i 'A') *
        (26 : Int) ^ ((canon ['b', 'a']).length - 1 - i)) - 1) :=
  claim_C1.1 ['b', 'a'] (by decide)

/-- C9: `excel_col_to_index` raises exactly when some character of the
stripped, case-folded label lies outside `A`..`Z`; on a label made of
letters only (either case) it never raises. -/
theorem claim_C9 :
    (∀ s : List Char,
      (∃ e, excel_col_to_index s = .error e) ↔
        ∃ c ∈ canon s, ¬('A' ≤ c ∧ c ≤ 'Z'))
    ∧ (∀ s : List Char,
        (∀ c ∈ s, ('A' ≤ c ∧ c ≤ 'Z') ∨ ('a' ≤ c ∧ c ≤ 'z')) →
        ∃ i, excel_col_to_index s = .ok i) := by
  have key : ∀ s : List Char,
      (∃ e, excel_col_to_index s = .error e) ↔ ¬ AllUpper (canon s) := by
    intro s
    by_cases h : AllUpper (canon s)
    · rw [excel_ok_of_canon s h]
      constructor
      · rintro ⟨e, he⟩; cases he
      · intro hn; exact absurd h hn
    · rw [excel_canon, excelLoop_err _ h 0]
      exact ⟨fun _ => h, fun _ => ⟨_, rfl⟩⟩
  constructor
  · intro s
    rw [key s]
    unfold AllUpper
    constructor
    · intro hn
      by_contra hcon
      push_neg at hcon
      exact hn hcon
    · rintro ⟨c, hc, hv⟩ hall
      exact hv (hall c hc)
  · intro s hs
    have h : AllUpper (canon s) := by
      intro c hc
      rcases List.mem_map.mp hc with ⟨c', hc', rfl⟩
      have hc's : c' ∈ s := mem_of_mem_pyStrip hc'
      rcases hs c' hc's with hu | hl
      · rw [char_toUpper_of_upper c' hu]; exact hu
      · exact char_toUpper_of_lower c' hl
    rw [excel_ok_of_canon s h]
    exact ⟨_, rfl⟩

/-- Witness for C9 at the concrete labels `['1', 'A']` (raises) and
`['f']` (does not raise). -/
theorem claim_C9_witness :
    (∃ e, excel_col_to_index ['1', 'A'] = .error e)
    ∧ (∃ i, excel_col_to_index ['f'] = .ok i) :=
  ⟨(claim_C9.1 ['1', 'A']).mpr ⟨'1', by decide, by decide⟩,
   claim_C9.2 ['f'] (by decide)⟩

/-- C10: on the empty string and on any whitespace-only string, the
character loop never runs, so `excel_col_to_index` raises nothing and
returns `-1` (a negative index). -/
theorem claim_C10 : ∀ s : List Char, (∀ c ∈ s, pyIsSpace c = true) →
    excel_col_to_index s = .ok (-1) := by
  intro s h
  have h1 : s.dropWhile pyIsSpace = [] := List.dropWhile_eq_nil_iff.mpr h
  have h2 : pyStrip s = [] := by
    unfold pyStrip
    rw [h1]
    rfl
  rw [excel_canon]
  unfold canon
  rw [h2]
  rfl

/-- Witness for C10 at the empty string and at a whitespace-only string. -/
theorem claim_C10_witness :
    excel_col_to_index [] = .ok (-1)
    ∧ excel_col_to_index [' ', '\t', ' '] = .ok (-1) :=
  ⟨claim_C10 [] (by decide), claim_C10 [' ', '\t', ' '] (by decide)⟩

theorem tokensAux_sound : ∀ (s acc : List Char),
    (∀ c ∈ acc, isSepChar c = false) →
    ∀ t ∈ tokensAux s acc, t ≠ [] ∧ ∀ c ∈ t, isSepChar c = false := by
  intro s
  induction s with
  | nil =>
      intro acc hacc t ht
      unfold tokensAux at ht
      by_cases h : acc = []
      · rw [if_pos h] at ht; cases ht
      · rw [if_neg h] at ht
        rcases List.mem_singleton.mp ht with rfl
        refine ⟨fun hrev => h (by simpa using hrev), ?_⟩
        intro c hc
        exact hacc c (List.mem_reverse.mp hc)
  | cons c cs ih =>
      intro acc hacc t ht
      unfold tokensAux at ht
      by_cases hsep : isSepChar c = true
      · rw [if_pos hsep] at ht
        by_cases h : acc = []
        · rw [if_pos h] at ht
          exact ih [] (by simp) t ht
        · rw [if_neg h] at ht
          rcases List.mem_cons.mp ht with rfl | ht2
          · exact ⟨fun hrev => h (by simpa using hrev),
              fun x hx => hacc x (List.mem_reverse.mp hx)⟩
          · exact ih [] (by simp) t ht2
      · rw [if_neg hsep] at ht
        refine ih (c :: acc) ?_ t ht
        intro x hx
        rcases List.mem_cons.mp hx with rfl | hx2
        · simpa using hsep
        · exact hacc x hx2

theorem tokensAux_flatten : ∀ (s acc : List Char),
    (tokensAux s acc).flatten = acc.reverse ++ s.filter (fun c => !isSepChar c) := by
  intro s
  induction s with
  | nil =>
      intro acc
      unfold tokensAux
      by_cases h : acc = []
      · rw [if_pos h]; subst h; rfl
      · rw [if_neg h]; simp
  | cons c cs ih =>
      intro acc
      unfold tokensAux
      by_cases hsep : isSepChar c = true
      · rw [if_pos hsep]
        by_cases h : acc = []
        · rw [if_pos h, ih []]
          subst h
          simp [List.filter_cons, hsep]
        · rw [if_neg h]
          simp only [List.flatten_cons, ih []]
          simp [List.filter_cons, hsep]
      · rw [if_neg hsep, ih (c :: acc)]
        simp [List.filter_cons, hsep]

/-- C8: the parsed columns spec consists of the maximal runs of
non-separator characters: every token is non-empty and separator-free, the
concatenation of the tokens is the input with all separator characters
removed (so order is preserved), and the concrete spec `F, G,H ;I` parses
to `[F, G, H, I]`. -/
theorem claim_C8 :
    (∀ s : List Char, ∀ t ∈ tokens s, t ≠ [] ∧ ∀ c ∈ t, isSepChar c = false)
    ∧ (∀ s : List Char, (tokens s).flatten = s.filter (fun c => !isSepChar c))
    ∧ parse_columns ['F', ',', ' ', 'G', ',', 'H', ' ', ';', 'I'] =
        [['F'], ['G'], ['H'], ['I']] := by
  refine ⟨fun s => tokensAux_sound s [] (by simp), fun s => ?_, by decide⟩
  rw [tokens, tokensAux_flatten]
  rfl

/-- Witness for C8 at a concrete spec and token. -/
theorem claim_C8_witness :
    (['F'] : List Char) ≠ [] ∧ ∀ c ∈ (['F'] : List Char), isSepChar c = false :=
  claim_C8.1 ['F', ';', 'G'] ['F'] (by decide)

/-- C2: on the worked-example sheet, requesting column `B` yields one entry
whose frequency table counts `a` three times and `b` once and has no other
key: the header is skipped, the `None` cell dropped, and the padded cell
trimmed and merged. -/
theorem claim_C2 :
    analyze (some sheetC2) ['B'] = .ok [(['B'], .ok c2Values)]
    ∧ c2Values.count ['a'] = 3
    ∧ c2Values.count ['b'] = 1
    ∧ c2Values.all (fun v => decide (v = ['a']) || decide (v = ['b'])) = true := by
  decide

/-- C5 counterexample: the whitespace-only cell is NOT dropped; it is
trimmed to the empty string and counted, so the empty string appears as a
key with count 1, contradicting the claim that post-trim-empty cells never
appear as keys. -/
theorem claim_C5_cex :
    analyze (some sheetC5) ['A'] = .ok [(['A'], .ok [[], ['x']])]
    ∧ (([[], ['x']] : List (List Char)).count [] = 1) := by
  decide

/-- C5 amended: the emptiness test (`dropna`) runs BEFORE trimming and
drops exactly the absent (`None`) cells; a cell that becomes empty after
trimming is kept and counted under the empty-string key — in particular,
whenever some data row holds a present cell that trims to nothing, the
empty string appears as a key of the column's frequency table. -/
theorem claim_C5_amended : ∀ (df : List (List Cell)) (i : Nat),
    (colValues df i).countP (fun v => decide (v = [])) =
      ((df.drop 1).filterMap (fun row => row.getD i none)).countP
        (fun s => decide (pyStrip s = []))
    ∧ (colValues df i).length =
        (df.drop 1).countP (fun row => (row.getD i none).isSome)
    ∧ ((∃ row ∈ df.drop 1, ∃ s, row.getD i none = some s ∧ pyStrip s = []) →
        1 ≤ (colValues df i).countP (fun v => decide (v = []))) := by
  intro df i
  have hc1 : (colValues df i).countP (fun v => decide (v = [])) =
      ((df.drop 1).filterMap (fun row => row.getD i none)).countP
        (fun s => decide (pyStrip s = [])) := by
    unfold colValues
    rw [List.countP_map]
    rfl
  refine ⟨hc1, ?_, ?_⟩
  · unfold colValues
    rw [List.length_map, List.length_filterMap_eq_countP]
  · rintro ⟨row, hrow, s, hs, hstrip⟩
    rw [hc1]
    have hmem : s ∈ (df.drop 1).filterMap (fun row => row.getD i none) :=
      List.mem_filterMap.mpr ⟨row, hrow, hs⟩
    have hps : (fun x => decide (pyStrip x = [])) s = true := decide_eq_true hstrip
    have hpos : 0 < ((df.drop 1).filterMap (fun row => row.getD i none)).countP
        (fun x => decide (pyStrip x = [])) :=
      List.countP_pos_iff.mpr ⟨s, hmem, hps⟩
    omega

/-- Witness for C5 amended at the whitespace-cell sheet: its column `A`
has the empty string as a key. -/
theorem claim_C5_amended_witness :
    1 ≤ (colValues sheetC5 0).countP (fun v => decide (v = [])) :=
  (claim_C5_amended sheetC5 0).2.2
    ⟨[some [' ', ' ']], by decide, [' ', ' '], by decide, by decide⟩

/-- A colon token is accepted pandas range syntax, not a failure: the
spec `A:B` on the two-column worked-example sheet succeeds, loads both
columns, and keys the first loaded column's histogram under the token
`A:B` itself. -/
theorem colon_range_succeeds :
    analyze (some sheetC2) ['A', ':', 'B'] =
      .ok [(['A', ':', 'B'], .ok [['1'], ['2'], ['3'], ['4'], ['5']])] := by
  decide

/-- The bare-colon spec also succeeds: both segments are empty, giving the
range `[-1]`, which selects no columns, so the token receives the
not-found marker rather than aborting the request. -/
theorem colon_only_succeeds :
    analyze (some sheetC2) [':'] =
      .ok [([':'], .error notFoundMsg)] := by
  decide

theorem isSep_false_of_upper (c : Char) (h : 'A' ≤ c ∧ c ≤ 'Z') :
    isSepChar c = false := by
  have h1 : 65 ≤ c.toNat := (char_le_iff 'A' c).mp h.1
  have hd : ∀ d : Char, d.toNat < 65 → decide (c = d) = false := by
    intro d hdlt
    apply decide_eq_false
    intro he
    rw [he] at h1
    omega
  unfold isSepChar pyIsSpace
  rw [hd ',' (by decide), hd ';' (by decide), hd ' ' (by decide),
    hd '\t' (by decide), hd '\n' (by decide), hd '\x0d' (by decide),
    hd '\x0b' (by decide), hd '\x0c' (by decide)]
  rfl

theorem pyIsSpace_false_of_not_sep (c : Char) (h : isSepChar c = false) :
    pyIsSpace c = false := by
  unfold isSepChar at h
  rcases Bool.or_eq_false_iff.mp h with ⟨-, h2⟩
  exact h2

theorem dropWhile_all_false (p : Char → Bool) (l : List Char)
    (h : ∀ c ∈ l, p c = false) : l.dropWhile p = l := by
  cases l with
  | nil => rfl
  | cons c cs => simp [List.dropWhile_cons, h c (List.mem_cons_self c cs)]

theorem pyStrip_eq_self (l : List Char) (h : ∀ c ∈ l, pyIsSpace c = false) :
    pyStrip l = l := by
  unfold pyStrip
  rw [dropWhile_all_false pyIsSpace l h,
    dropWhile_all_false pyIsSpace l.reverse (fun c hc => h c (List.mem_reverse.mp hc)),
    List.reverse_reverse]

theorem pyUpper_id (t : List Char) (h : AllUpper t) : pyUpper t = t := by
  unfold pyUpper
  rw [List.map_congr_left (fun c hc => char_toUpper_of_upper c (h c hc))]
  exact List.map_id t

theorem tokensAux_notsep_run : ∀ (t rest acc : List Char),
    (∀ c ∈ t, isSepChar c = false) →
    tokensAux (t ++ rest) acc = tokensAux rest (t.reverse ++ acc) := by
  intro t
  induction t with
  | nil => intro rest acc _; rfl
  | cons c ts ih =>
      intro rest acc h
      have hc : isSepChar c = false := h c (List.mem_cons_self c ts)
      have step : tokensAux ((c :: ts) ++ rest) acc = tokensAux (ts ++ rest) (c :: acc) := by
        simp [tokensAux, hc]
      rw [step, ih rest (c :: acc) (fun x hx => h x (List.mem_cons_of_mem c hx))]
      simp

theorem tokens_single (t : List Char) (hne : t ≠ [])
    (hsep : ∀ c ∈ t, isSepChar c = false) : tokens t = [t] := by
  unfold tokens
  have h2 : tokensAux (t ++ []) [] = tokensAux [] (t.reverse ++ []) :=
    tokensAux_notsep_run t [] [] hsep
  rw [List.append_nil, List.append_nil] at h2
  rw [h2]
  unfold tokensAux
  rw [if_neg (by simpa using hne), List.reverse_reverse]

theorem tokens_double (t : List Char) (hne : t ≠ [])
    (hsep : ∀ c ∈ t, isSepChar c = false) :
    tokens (t ++ ',' :: t) = [t, t] := by
  have hsingle : tokensAux t [] = [t] := tokens_single t hne hsep
  unfold tokens
  rw [tokensAux_notsep_run t (',' :: t) [] hsep, List.append_nil]
  show tokensAux (',' :: t) t.reverse = _
  unfold tokensAux
  rw [if_pos (by decide), if_neg (by simpa using hne), List.reverse_reverse, hsingle]

theorem range_filter_beq : ∀ (m n : Nat), n < m →
    (List.range m).filter (fun i => i == n) = [n] := by
  intro m
  induction m with
  | zero => intro n hn; exact absurd hn (Nat.not_lt_zero n)
  | succ m ih =>
      intro n hn
      rw [List.range_succ, List.filter_append]
      by_cases h : n < m
      · rw [ih n h]
        have hmn : (m == n) = false := by
          simp only [beq_eq_false_iff_ne, ne_eq]
          omega
        simp [hmn]
      · have hmn : n = m := by omega
        subst hmn
        have h1 : (List.range n).filter (fun i => i == n) = [] := by
          apply List.filter_eq_nil_iff.mpr
          intro a ha
          have halt := List.mem_range.mp ha
          simp only [beq_iff_eq]
          omega
        rw [h1]
        simp

theorem selectCols_pair (n ncols : Nat) (h : n < ncols) :
    selectCols [(n : Int), (n : Int)] ncols = [n] := by
  unfold selectCols
  have hcong : ∀ i ∈ List.range ncols,
      decide ((i : Int) ∈ [(n : Int), (n : Int)]) = (i == n) := by
    intro i _
    by_cases hi : i = n
    · subst hi
      simp
    · simp [List.mem_cons, Nat.cast_inj, hi]
  rw [List.filter_congr hcong]
  exact range_filter_beq ncols n h

/-- C6 counterexample: the duplicate request `A, A` on the worked-example
sheet does NOT give the second occurrence the column's histogram: pandas
deduplicates the loaded columns, so only one column is loaded, the second
loop position overflows it and gets the error marker — the two entries are
different and the marker, written last, is what the result dictionary
holds for key `A`. -/
theorem claim_C6_cex :
    analyze (some sheetC2) ['A', ',', ' ', 'A'] =
      .ok [(['A'], .ok [['1'], ['2'], ['3'], ['4'], ['5']]),
           (['A'], .error notFoundMsg)]
    ∧ dictGet [(['A'], .ok [['1'], ['2'], ['3'], ['4'], ['5']]),
               (['A'], .error notFoundMsg)] ['A'] = some (.error notFoundMsg) := by
  decide

/-- C6 amended: requested labels are indeed not deduplicated — both
occurrences of a duplicated label are processed — but the loaded columns
are deduplicated, so for a valid in-range label requested twice the first
occurrence receives the column's histogram, the second receives the error
marker, and under dictionary key semantics the marker (written last) wins. -/
theorem claim_C6_amended : ∀ (sheet : Sheet) (t : List Char) (n : Nat),
    AllUpper t → t ≠ [] →
    excel_col_to_index t = .ok (n : Int) → n < sheetNCols sheet →
    analyzeCore sheet (t ++ ',' :: t) =
      .ok [(t, .ok (((sheet.drop 1).filterMap (fun row => row.getD n none)).map pyStrip)),
           (t, .error notFoundMsg)]
    ∧ dictGet [(t, .ok (((sheet.drop 1).filterMap (fun row => row.getD n none)).map pyStrip)),
               (t, .error notFoundMsg)] t = some (.error notFoundMsg) := by
  intro sheet t n hAU hne hexcel hlt
  have hsep : ∀ c ∈ t, isSepChar c = false :=
    fun c hc => isSep_false_of_upper c (hAU c hc)
  have hspace : ∀ c ∈ t, pyIsSpace c = false :=
    fun c hc => pyIsSpace_false_of_not_sep c (hsep c hc)
  have hstrip : pyStrip t = t := pyStrip_eq_self t hspace
  have ht : pyUpper (pyStrip t) = t := by rw [hstrip]; exact pyUpper_id t hAU
  have hpc : parse_columns (t ++ ',' :: t) = [t, t] := by
    unfold parse_columns
    rw [pyStrip_eq_self (t ++ ',' :: t) ?_]
    · exact tokens_double t hne hsep
    · intro c hc
      rcases List.mem_append.mp hc with h1 | h1
      · exact hspace c h1
      · rcases List.mem_cons.mp h1 with rfl | h2
        · decide
        · exact hspace c h2
  have hcolon : ':' ∉ t := by
    intro hmem
    have h1 := (char_le_iff 'A' ':').mp (hAU ':' hmem).1
    have hA : ('A').toNat = 65 := rfl
    have hcl : (':').toNat = 58 := rfl
    omega
  have hrc : rangeCols t = .ok [(n : Int)] := by
    simp [rangeCols, hcolon, hexcel]
  have hec : excelColsE [t, t] = .ok [(n : Int), (n : Int)] := by
    simp [excelColsE, hrc]
  have hareas : usecolsAreas [t, t] = [t, t] := by
    simp [usecolsAreas]
  have hnb : (decide ((sheetNCols sheet : Int) ≤ (n : Int))) = false := by
    apply decide_eq_false
    rw [Int.not_le]
    exact_mod_cast hlt
  have hru : readUsecols sheet [(n : Int), (n : Int)] =
      .ok (sheet.map (fun row => [row.getD n none])) := by
    unfold readUsecols
    rw [if_neg (by simp; omega)]
    rw [selectCols_pair n _ hlt]
    rfl
  have hcv : colValues (sheet.map (fun row => [row.getD n none])) 0 =
      ((sheet.drop 1).filterMap (fun row => row.getD n none)).map pyStrip := by
    unfold colValues
    rw [← List.map_drop, List.filterMap_map]
    rfl
  constructor
  · simp only [analyzeCore, hpc, List.map_cons, List.map_nil, ht, hareas, hec, hru,
      selectCols_pair n _ hlt, List.length_singleton, buildResult, List.enum,
      List.enumFrom, hcv]
    norm_num
  · unfold dictGet
    simp

/-- Witness for C6 amended at the worked-example sheet with label `A`. -/
theorem claim_C6_amended_witness :
    analyzeCore sheetC2 (['A'] ++ ',' :: ['A']) =
      .ok [(['A'], .ok (((sheetC2.drop 1).filterMap (fun row => row.getD 0 none)).map pyStrip)),
           (['A'], .error notFoundMsg)]
    ∧ dictGet [(['A'], .ok (((sheetC2.drop 1).filterMap (fun row => row.getD 0 none)).map pyStrip)),
               (['A'], .error notFoundMsg)] ['A'] = some (.error notFoundMsg) :=
  claim_C6_amended sheetC2 ['A'] 0 (by decide) (by decide) (by decide) (by decide)

theorem maxVal_add_one : ∀ n, maxVal n + 1 = minVal (n + 1) := by
  intro n
  induction n with
  | zero => rfl
  | succ n ih =>
      show 26 ^ (n + 1) + maxVal n + 1 = 26 ^ (n + 1) + minVal (n + 1)
      omega

theorem minVal_lt_succ (n : Nat) : minVal n < minVal (n + 1) := by
  have h : 1 ≤ 26 ^ n := Nat.one_le_pow n 26 (by norm_num)
  show minVal n < 26 ^ n + minVal n
  omega

theorem minVal_mono : ∀ {m n : Nat}, m ≤ n → minVal m ≤ minVal n := by
  intro m n h
  induction n with
  | zero =>
      have h0 : m = 0 := by omega
      subst h0
      exact le_refl _
  | succ n ih =>
      by_cases hm : m ≤ n
      · exact le_trans (ih hm) (le_of_lt (minVal_lt_succ n))
      · have h1 : m = n + 1 := by omega
        subst h1
        exact le_refl _

theorem digit_bounds (c : Char) (h : 'A' ≤ c ∧ c ≤ 'Z') :
    1 ≤ c.toNat - 'A'.toNat + 1 ∧ c.toNat - 'A'.toNat + 1 ≤ 26 := by
  have h1 : 65 ≤ c.toNat := (char_le_iff 'A' c).mp h.1
  have h2 : c.toNat ≤ 90 := (char_le_iff c 'Z').mp h.2
  have hA : ('A').toNat = 65 := rfl
  omega

theorem vAux_bounds : ∀ (L : List Char), AllUpper L → ∀ a : Nat,
    26 ^ L.length * a + minVal L.length ≤ vAux L a ∧
      vAux L a ≤ 26 ^ L.length * a + maxVal L.length := by
  intro L
  induction L with
  | nil =>
      intro _ a
      show 26 ^ 0 * a + minVal 0 ≤ a ∧ a ≤ 26 ^ 0 * a + maxVal 0
      simp [minVal, maxVal]
  | cons c cs ih =>
      intro h a
      have hcs : AllUpper cs := fun x hx => h x (List.mem_cons_of_mem c hx)
      have hd := digit_bounds c (h c (List.mem_cons_self c cs))
      set d := c.toNat - 'A'.toNat + 1 with hdef
      have hih := ih hcs (a * 26 + d)
      have hstep : vAux (c :: cs) a = vAux cs (a * 26 + d) := rfl
      rw [hstep]
      have hpow : 26 ^ (c :: cs).length = 26 ^ cs.length * 26 := by
        rw [List.length_cons, pow_succ]
      constructor
      · calc 26 ^ (c :: cs).length * a + minVal (c :: cs).length
            = 26 ^ cs.length * (a * 26) + (26 ^ cs.length * 1 + minVal cs.length) := by
              rw [hpow, List.length_cons]
              show 26 ^ cs.length * 26 * a + (26 ^ cs.length + minVal cs.length) = _
              ring
          _ ≤ 26 ^ cs.length * (a * 26) + (26 ^ cs.length * d + minVal cs.length) := by
              have := Nat.mul_le_mul_left (26 ^ cs.length) hd.1
              omega
          _ = 26 ^ cs.length * (a * 26 + d) + minVal cs.length := by ring
          _ ≤ vAux cs (a * 26 + d) := hih.1
      · calc vAux cs (a * 26 + d)
            ≤ 26 ^ cs.length * (a * 26 + d) + maxVal cs.length := hih.2
          _ = 26 ^ cs.length * (a * 26) + (26 ^ cs.length * d + maxVal cs.length) := by ring
          _ ≤ 26 ^ cs.length * (a * 26) + (26 ^ cs.length * 26 + maxVal cs.length) := by
              have := Nat.mul_le_mul_left (26 ^ cs.length) hd.2
              omega
          _ = 26 ^ (c :: cs).length * a + maxVal (c :: cs).length := by
              rw [hpow, List.length_cons]
              show _ = 26 ^ cs.length * 26 * a + (26 ^ (cs.length + 1) + maxVal cs.length)
              rw [pow_succ]
              ring

theorem vAux_lt_of_lex : ∀ {L1 L2 : List Char}, List.Lex (· < ·) L1 L2 →
    AllUpper L1 → AllUpper L2 → L1.length = L2.length →
    ∀ a : Nat, vAux L1 a < vAux L2 a := by
  intro L1 L2 hlex
  induction hlex with
  | nil => intro _ _ hlen a; simp at hlen
  | @rel x xs y ys hxy =>
      intro h1 h2 hlen a
      have hxs : AllUpper xs := fun z hz => h1 z (List.mem_cons_of_mem x hz)
      have hys : AllUpper ys := fun z hz => h2 z (List.mem_cons_of_mem y hz)
      have hdx := digit_bounds x (h1 x (List.mem_cons_self x xs))
      have hdy := digit_bounds y (h2 y (List.mem_cons_self y ys))
      have hxylt : x.toNat < y.toNat := (char_lt_iff x y).mp hxy
      have h65x : 65 ≤ x.toNat := (char_le_iff 'A' x).mp (h1 x (List.mem_cons_self x xs)).1
      have hA : ('A').toNat = 65 := rfl
      set d1 := x.toNat - 'A'.toNat + 1 with hd1def
      set d2 := y.toNat - 'A'.toNat + 1 with hd2def
      have hdlt : d1 < d2 := by rw [hd1def, hd2def]; omega
      have hlen2 : xs.length = ys.length := by simpa using hlen
      have hu := (vAux_bounds xs hxs (a * 26 + d1)).2
      have hl := (vAux_bounds ys hys (a * 26 + d2)).1
      rw [hlen2] at hu
      have hmv := maxVal_add_one ys.length
      have hmv2 : minVal (ys.length + 1) = 26 ^ ys.length + minVal ys.length := rfl
      have hdist : 26 ^ ys.length * (a * 26 + d1 + 1) =
          26 ^ ys.length * (a * 26 + d1) + 26 ^ ys.length := by ring
      have hmul : 26 ^ ys.length * (a * 26 + d1 + 1) ≤ 26 ^ ys.length * (a * 26 + d2) :=
        Nat.mul_le_mul_left _ (by omega)
      show vAux xs (a * 26 + d1) < vAux ys (a * 26 + d2)
      omega
  | @cons x xs ys hlex2 ih =>
      intro h1 h2 hlen a
      have hxs : AllUpper xs := fun z hz => h1 z (List.mem_cons_of_mem x hz)
      have hys : AllUpper ys := fun z hz => h2 z (List.mem_cons_of_mem x hz)
      have hlen2 : xs.length = ys.length := by simpa using hlen
      exact ih hxs hys hlen2 (a * 26 + (x.toNat - 'A'.toNat + 1))

theorem labelVal_lt_of_labelLt {L1 L2 : List Char} (h1 : ValidLabel L1)
    (h2 : ValidLabel L2) (hlt : labelLt L1 L2) : labelVal L1 < labelVal L2 := by
  rcases hlt with hlen | ⟨hlen, hlex⟩
  · have hu := (vAux_bounds L1 h1.2 0).2
    have hl := (vAux_bounds L2 h2.2 0).1
    have hmv := maxVal_add_one L1.length
    have hmono := minVal_mono (show L1.length + 1 ≤ L2.length by omega)
    unfold labelVal
    omega
  · exact vAux_lt_of_lex hlex h1.2 h2.2 hlen 0

theorem vAux_append (c : Char) : ∀ (L : List Char) (a : Nat),
    vAux (L ++ [c]) a = vAux L a * 26 + (c.toNat - 'A'.toNat + 1) := by
  intro L
  induction L with
  | nil => intro a; rfl
  | cons x xs ih => intro a; exact ih _

theorem toLabel_val : ∀ n : Nat, labelVal (toLabel n) = n := by
  intro n
  induction n using Nat.strong_induction_on with
  | _ n ih =>
      cases n with
      | zero => rw [show toLabel 0 = [] from by rw [toLabel]]; rfl
      | succ m =>
          rw [toLabel]
          unfold labelVal
          rw [vAux_append]
          have hrec := ih (m / 26) (by omega)
          unfold labelVal at hrec
          rw [hrec]
          have hm26 : m % 26 < 26 := Nat.mod_lt m (by norm_num)
          have hA : ('A').toNat = 65 := rfl
          have hch : (Char.ofNat ('A'.toNat + m % 26)).toNat = 'A'.toNat + m % 26 :=
            char_toNat_ofNat _ (by omega)
          rw [hch]
          omega

theorem toLabel_allUpper : ∀ n : Nat, AllUpper (toLabel n) := by
  intro n
  induction n using Nat.strong_induction_on with
  | _ n ih =>
      cases n with
      | zero =>
          intro c hc
          rw [show toLabel 0 = [] from by rw [toLabel]] at hc
          exact absurd hc (List.not_mem_nil c)
      | succ m =>
          intro c hc
          rw [toLabel] at hc
          rcases List.mem_append.mp hc with h | h
          · exact ih (m / 26) (by omega) c h
          · have hc2 : c = Char.ofNat ('A'.toNat + m % 26) := List.mem_singleton.mp h
            subst hc2
            have hm26 : m % 26 < 26 := Nat.mod_lt m (by norm_num)
            have hA : ('A').toNat = 65 := rfl
            have hZ : ('Z').toNat = 90 := rfl
            have hch : (Char.ofNat ('A'.toNat + m % 26)).toNat = 'A'.toNat + m % 26 :=
              char_toNat_ofNat _ (by omega)
            constructor
            · rw [char_le_iff, hch]; omega
            · rw [char_le_iff, hch]; omega

theorem toLabel_ne_nil (n : Nat) (h : 0 < n) : toLabel n ≠ [] := by
  cases n with
  | zero => omega
  | succ m => rw [toLabel]; simp

theorem excelLoop_vAux (L : List Char) (h : AllUpper L) :
    ∀ a : Nat, excelLoop L (a : Int) = .ok (((vAux L a : Nat) : Int) - 1) := by
  induction L with
  | nil => intro a; rfl
  | cons c cs ih =>
      intro a
      have hc := h c (List.mem_cons_self c cs)
      have hcs : AllUpper cs := fun x hx => h x (List.mem_cons_of_mem c hx)
      have h65 : 65 ≤ c.toNat := (char_le_iff 'A' c).mp hc.1
      have hA : ('A').toNat = 65 := rfl
      rw [excelLoop, if_pos hc]
      have hcast : (a : Int) * 26 + ((c.toNat : Int) - ('A'.toNat : Int) + 1) =
          ((a * 26 + (c.toNat - 'A'.toNat + 1) : Nat) : Int) := by
        rw [hA]
        omega
      rw [hcast, ih hcs]
      rfl

theorem excel_valid (L : List Char) (h : ValidLabel L) :
    excel_col_to_index L = .ok ((labelVal L : Int) - 1) := by
  have hAU := h.2
  have hspace : ∀ c ∈ L, pyIsSpace c = false :=
    fun c hc => pyIsSpace_false_of_not_sep c (isSep_false_of_upper c (hAU c hc))
  have hcanon : canon L = L := by
    unfold canon
    rw [pyStrip_eq_self L hspace]
    exact pyUpper_id L hAU
  rw [excel_canon, hcanon]
  have h0 : (0 : Int) = ((0 : Nat) : Int) := rfl
  rw [h0, excelLoop_vAux L hAU 0]
  rfl

theorem labelVal_pos (L : List Char) (h : ValidLabel L) : 1 ≤ labelVal L := by
  have hb := (vAux_bounds L h.2 0).1
  have hlen : 1 ≤ L.length := List.length_pos.mpr h.1
  have hm := minVal_mono hlen
  have h1 : minVal 1 = 1 := rfl
  unfold labelVal
  omega

theorem lex_trichotomy : ∀ (L1 L2 : List Char), L1.length = L2.length →
    L1 = L2 ∨ List.Lex (· < ·) L1 L2 ∨ List.Lex (· < ·) L2 L1 := by
  intro L1
  induction L1 with
  | nil =>
      intro L2 h
      cases L2 with
      | nil => exact Or.inl rfl
      | cons d ds => simp at h
  | cons c cs ih =>
      intro L2 h
      cases L2 with
      | nil => simp at h
      | cons d ds =>
          rcases lt_trichotomy c d with hlt | heq | hgt
          · exact Or.inr (Or.inl (List.Lex.rel hlt))
          · subst heq
            rcases ih ds (by simpa using h) with rfl | hl | hr
            · exact Or.inl rfl
            · exact Or.inr (Or.inl (List.Lex.cons hl))
            · exact Or.inr (Or.inr (List.Lex.cons hr))
          · exact Or.inr (Or.inr (List.Lex.rel hgt))

theorem labelLt_trichotomy (L1 L2 : List Char) :
    L1 = L2 ∨ labelLt L1 L2 ∨ labelLt L2 L1 := by
  rcases Nat.lt_trichotomy L1.length L2.length with hlt | heq | hgt
  · exact Or.inr (Or.inl (Or.inl hlt))
  · rcases lex_trichotomy L1 L2 heq with rfl | hl | hr
    · exact Or.inl rfl
    · exact Or.inr (Or.inl (Or.inr ⟨heq, hl⟩))
    · exact Or.inr (Or.inr (Or.inr ⟨heq.symm, hr⟩))
  · exact Or.inr (Or.inr (Or.inl hgt))

/-- C7: on valid labels, `excel_col_to_index` is strictly increasing with
respect to the natural (shortlex) label ordering, and it is a bijection
onto the non-negative integers: every `n : Nat` has exactly one valid
label with index `n`. -/
theorem claim_C7 :
    (∀ (L1 L2 : List Char) (i j : Int), ValidLabel L1 → ValidLabel L2 →
      labelLt L1 L2 → excel_col_to_index L1 = .ok i →
      excel_col_to_index L2 = .ok j → i < j)
    ∧ (∀ n : Nat, ∃! L : List Char,
        ValidLabel L ∧ excel_col_to_index L = .ok (n : Int)) := by
  constructor
  · intro L1 L2 i j h1 h2 hlt hi hj
    rw [excel_valid L1 h1] at hi
    rw [excel_valid L2 h2] at hj
    have hv := labelVal_lt_of_labelLt h1 h2 hlt
    cases hi
    cases hj
    omega
  · intro n
    have hval : ValidLabel (toLabel (n + 1)) :=
      ⟨toLabel_ne_nil (n + 1) (by omega), toLabel_allUpper (n + 1)⟩
    have hok : excel_col_to_index (toLabel (n + 1)) = .ok (n : Int) := by
      rw [excel_valid _ hval, toLabel_val]
      congr 1
      push_cast
      ring
    refine ⟨toLabel (n + 1), ⟨hval, hok⟩, ?_⟩
    rintro L ⟨hvL, hokL⟩
    rw [excel_valid L hvL] at hokL
    have hL : labelVal L = n + 1 := by
      injection hokL with hinj
      omega
    have hT : labelVal (toLabel (n + 1)) = n + 1 := toLabel_val (n + 1)
    rcases labelLt_trichotomy L (toLabel (n + 1)) with heq | hlt | hgt
    · exact heq
    · have := labelVal_lt_of_labelLt hvL hval hlt
      omega
    · have := labelVal_lt_of_labelLt hval hvL hgt
      omega

/-- Witness for C7: its monotonicity part applied to the labels `A` and
`B`, whose indices are 0 and 1. -/
theorem claim_C7_witness : (0 : Int) < 1 :=
  claim_C7.1 ['A'] ['B'] 0 1 (by decide) (by decide)
    (Or.inr ⟨rfl, List.Lex.rel (by decide)⟩) (by decide) (by decide)
